import Mathlib

/-!
Verification of `fix_profile.py`.

The script reads `MotoRev/Views/ProfileView.swift`, applies two literal
`str.replace` substitutions to its contents, writes the result back and prints a
fixed confirmation message.  File contents are embedded as `List Char`; the two
`content.replace(old, new)` calls are embedded by `pyRep`, which implements
CPython `str.replace` semantics for a nonempty pattern (a left-to-right scan
replacing leftmost non-overlapping occurrences — both patterns the script uses
are nonempty).  The surrounding `open`/`read`/`write`/`print` sequence is
embedded as a state transformer `runScript` over a small process state, where a
missing target file makes the read step fail and terminate the run before any
write or print occurs.
-/

set_option maxHeartbeats 1000000

/-- The first pattern the script searches for (source line 8). -/
def old1 : List Char :=
  "receiveCompletion: \x7b [weak self] (completion: Subscribers.Completion<e>) in".toList

/-- The replacement for the first pattern (source line 9). -/
def new1 : List Char :=
  "receiveCompletion: \x7b [weak self] completion in".toList

/-- The second pattern the script searches for (source line 13). -/
def old2 : List Char :=
  "receiveValue: \x7b [weak self] (response: UpdateProfileResponse) in".toList

/-- The replacement for the second pattern (source line 14). -/
def new2 : List Char :=
  "receiveValue: \x7b [weak self] response in".toList

/-- The confirmation message printed at source line 20. -/
def confirmMsg : List Char :=
  "Fixed ProfileView.swift compilation errors".toList

/-- Embedding of CPython `str.replace old new` for a nonempty pattern `old`
(both patterns used by the script are nonempty): scan the text left to right;
whenever `old` matches at the current position emit `new` and skip over the
matched characters, otherwise keep one character and continue. -/
def pyRep (old new : List Char) : List Char → List Char
  | [] => []
  | c :: rest =>
    if old <+: (c :: rest) then
      new ++ pyRep old new (rest.drop (old.length - 1))
    else
      c :: pyRep old new rest
termination_by s => s.length
decreasing_by
  · simp only [List.length_drop, List.length_cons]
    omega
  · simp only [List.length_cons]
    omega

/-- The whole content transformation of the script (lines 7-15): the first
replacement followed by the second. -/
def fixContent (s : List Char) : List Char :=
  pyRep old2 new2 (pyRep old1 new1 s)

theorem pyRep_nil (old new : List Char) : pyRep old new [] = [] := by
  simp [pyRep]

theorem pyRep_cons_pos (old new : List Char) (c : Char) (rest : List Char)
    (h : old <+: (c :: rest)) :
    pyRep old new (c :: rest) = new ++ pyRep old new (rest.drop (old.length - 1)) := by
  rw [pyRep]
  simp [h]

theorem pyRep_cons_neg (old new : List Char) (c : Char) (rest : List Char)
    (h : ¬ old <+: (c :: rest)) :
    pyRep old new (c :: rest) = c :: pyRep old new rest := by
  rw [pyRep]
  simp [h]

theorem pyRep_match (old new : List Char) (hne : old ≠ []) (s : List Char) (h : old <+: s) :
    pyRep old new s = new ++ pyRep old new (s.drop old.length) := by
  cases s with
  | nil => exact absurd (List.prefix_nil.mp h) hne
  | cons c rest =>
    rw [pyRep_cons_pos old new c rest h]
    obtain ⟨k, hk⟩ : ∃ k, old.length = k + 1 :=
      ⟨old.length - 1, by
        have := List.length_pos.mpr hne
        omega⟩
    have hd : (c :: rest).drop old.length = rest.drop (old.length - 1) := by
      rw [hk]
      simp [List.drop_succ_cons]
    rw [hd]

theorem pyRep_append_left (old new t : List Char) :
    ∀ p : List Char, (∀ j, j < p.length → ¬ old <+: (p.drop j ++ t)) →
      pyRep old new (p ++ t) = p ++ pyRep old new t := by
  intro p
  induction p with
  | nil => intro _; simp
  | cons c p' ih =>
    intro h
    have h0 : ¬ old <+: (c :: (p' ++ t)) := by simpa using h 0 (by simp)
    have h' : ∀ j, j < p'.length → ¬ old <+: (p'.drop j ++ t) := by
      intro j hj
      simpa using h (j + 1) (by simpa using Nat.succ_lt_succ hj)
    rw [List.cons_append, pyRep_cons_neg old new _ _ h0, ih h']
    rfl

theorem pyRep_of_no_occ (old new : List Char) (s : List Char)
    (h : ∀ j, ¬ old <+: s.drop j) : pyRep old new s = s := by
  have h' : ∀ j, j < s.length → ¬ old <+: (s.drop j ++ []) := by
    intro j _
    simpa using h j
  have := pyRep_append_left old new [] s h'
  simpa [pyRep_nil] using this

/-- Two lists are prefix-comparable (one is a prefix of the other), as a
boolean check. -/
def cmpB (a b : List Char) : Bool := a.isPrefixOf b || b.isPrefixOf a

/-- No suffix `a.drop i` (for `i < a.length`) of `a` is prefix-comparable with
`b`: a boolean check used to certify that occurrences of one string cannot
overlap another. -/
def dropsNoCmp (a b : List Char) : Bool :=
  (List.range a.length).all fun i => !(cmpB (a.drop i) b)

theorem dropsNoCmp_spec (a b : List Char) (h : dropsNoCmp a b = true) :
    ∀ i, i < a.length → ¬ (a.drop i <+: b) ∧ ¬ (b <+: a.drop i) := by
  intro i hi
  have hall := List.all_eq_true.mp h i (List.mem_range.mpr hi)
  have h1 : (a.drop i).isPrefixOf b = false ∧ b.isPrefixOf (a.drop i) = false := by
    simpa [cmpB] using hall
  refine ⟨fun hp => ?_, fun hp => ?_⟩
  · have h2 := List.isPrefixOf_iff_prefix.mpr hp
    rw [h1.1] at h2
    simp at h2
  · have h2 := List.isPrefixOf_iff_prefix.mpr hp
    rw [h1.2] at h2
    simp at h2

/-- `old` occurs nowhere in `s` (no suffix of `s` starts with `old`), as a
boolean check. -/
def noOccB (old s : List Char) : Bool :=
  (List.range (s.length + 1)).all fun j => !(old.isPrefixOf (s.drop j))

theorem noOccB_spec (old s : List Char) (hne : old ≠ []) (h : noOccB old s = true) :
    ∀ j, ¬ old <+: s.drop j := by
  intro j hp
  by_cases hj : j < s.length + 1
  · have hall := List.all_eq_true.mp h j (List.mem_range.mpr hj)
    simp only [Bool.not_eq_eq_eq_not, Bool.not_true] at hall
    have h2 := List.isPrefixOf_iff_prefix.mpr hp
    rw [hall] at h2
    simp at h2
  · have hdrop : s.drop j = [] := List.drop_eq_nil_of_le (by omega)
    rw [hdrop] at hp
    exact hne (List.prefix_nil.mp hp)

theorem old1_ne_nil : old1 ≠ [] := by decide

theorem old2_ne_nil : old2 ≠ [] := by decide

theorem fact_old1_old2 : dropsNoCmp old1 old2 = true := by decide

theorem fact_old2_old1 : dropsNoCmp old2 old1 = true := by decide

theorem fact_old1_new1 : dropsNoCmp old1 new1 = true := by decide

theorem fact_old1_new2 : dropsNoCmp old1 new2 = true := by decide

theorem fact_old2_new1 : dropsNoCmp old2 new1 = true := by decide

theorem fact_old2_new2 : dropsNoCmp old2 new2 = true := by decide

theorem fact_new1_old1 : dropsNoCmp new1 old1 = true := by decide

theorem fact_new1_old2 : dropsNoCmp new1 old2 = true := by decide

theorem fact_new2_old1 : dropsNoCmp new2 old1 = true := by decide

theorem fact_new2_old2 : dropsNoCmp new2 old2 = true := by decide

theorem no_prefix_append_of_dropsNoCmp (b p t : List Char) (h : dropsNoCmp p b = true) :
    ∀ j, j < p.length → ¬ b <+: (p.drop j ++ t) := by
  intro j hj hb
  have hcomp := List.prefix_or_prefix_of_prefix hb (List.prefix_append (p.drop j) t)
  have hspec := dropsNoCmp_spec p b h j hj
  cases hcomp with
  | inl h1 => exact hspec.2 h1
  | inr h1 => exact hspec.1 h1

theorem pyRep_append_left_of_dropsNoCmp (b n p t : List Char) (h : dropsNoCmp p b = true) :
    pyRep b n (p ++ t) = p ++ pyRep b n t :=
  pyRep_append_left b n t p (no_prefix_append_of_dropsNoCmp b p t h)

/-- Replacing occurrences of `a` by `n` cannot create a new occurrence of a
suffix of `b` at the front of the text, provided no suffix of `b` is
prefix-comparable with `n`. -/
theorem pyRep_no_create (a n b : List Char)
    (hcmp : dropsNoCmp b n = true) :
    ∀ fuel s, s.length ≤ fuel → ∀ i, i ≤ b.length →
      b.drop i <+: pyRep a n s → b.drop i <+: s := by
  intro fuel
  induction fuel with
  | zero =>
    intro s hs i _ hp
    have hnil : s = [] := List.eq_nil_of_length_eq_zero (Nat.le_zero.mp hs)
    subst hnil
    rw [pyRep_nil] at hp
    exact hp
  | succ fuel ih =>
    intro s hs i hi hp
    cases s with
    | nil =>
      rw [pyRep_nil] at hp
      exact hp
    | cons c rest =>
      by_cases hi2 : i < b.length
      · by_cases hm : a <+: (c :: rest)
        · exfalso
          rw [pyRep_cons_pos a n c rest hm] at hp
          have hcomp := List.prefix_or_prefix_of_prefix hp (List.prefix_append n _)
          have hspec := dropsNoCmp_spec b n hcmp i hi2
          cases hcomp with
          | inl h1 => exact hspec.1 h1
          | inr h1 => exact hspec.2 h1
        · rw [pyRep_cons_neg a n c rest hm] at hp
          rw [List.drop_eq_getElem_cons hi2] at hp ⊢
          rw [List.cons_prefix_cons] at hp ⊢
          refine ⟨hp.1, ?_⟩
          exact ih rest (by simpa using hs) (i + 1) (by omega) hp.2
      · have hlen : i = b.length := by omega
        rw [hlen, List.drop_length]
        exact List.nil_prefix

theorem pyRep_no_create_head (a n b : List Char)
    (hcmp : dropsNoCmp b n = true) (s : List Char)
    (hp : b <+: pyRep a n s) : b <+: s := by
  have := pyRep_no_create a n b hcmp s.length s (Nat.le_refl _) 0 (Nat.zero_le _)
  simpa using this hp

theorem drop_len_cons (w : List Char) (hw : w ≠ []) (c : Char) (rest : List Char) :
    (c :: rest).drop w.length = rest.drop (w.length - 1) := by
  obtain ⟨k, hk⟩ : ∃ k, w.length = k + 1 :=
    ⟨w.length - 1, by
      have := List.length_pos.mpr hw
      omega⟩
  rw [hk]
  simp [List.drop_succ_cons]

/-- A segment of the input, as discovered by a combined left-to-right scan for
the two patterns: an occurrence of the first pattern, an occurrence of the
second pattern, or a single literal character that starts no occurrence. -/
inductive Seg where
  | occ1 : Seg
  | occ2 : Seg
  | lit : Char → Seg
deriving DecidableEq

/-- Combined left-to-right scan of the input for occurrences of both patterns
(the first pattern is tested first at each position; the two patterns can never
match at the same position, by `fact_old1_old2`). -/
def segScan : List Char → List Seg
  | [] => []
  | c :: rest =>
    if old1 <+: (c :: rest) then
      Seg.occ1 :: segScan (rest.drop (old1.length - 1))
    else if old2 <+: (c :: rest) then
      Seg.occ2 :: segScan (rest.drop (old2.length - 1))
    else
      Seg.lit c :: segScan rest
termination_by s => s.length
decreasing_by
  · simp only [List.length_drop, List.length_cons]
    omega
  · simp only [List.length_drop, List.length_cons]
    omega
  · simp only [List.length_cons]
    omega

/-- The characters a segment stands for in the original input. -/
def segOrig : Seg → List Char
  | Seg.occ1 => old1
  | Seg.occ2 => old2
  | Seg.lit c => [c]

/-- The characters a segment stands for in the transformed output. -/
def segNew : Seg → List Char
  | Seg.occ1 => new1
  | Seg.occ2 => new2
  | Seg.lit c => [c]

/-- Concatenation of the images of the segments. -/
def joinSegs (f : Seg → List Char) : List Seg → List Char
  | [] => []
  | g :: gs => f g ++ joinSegs f gs

theorem segScan_nil : segScan [] = [] := by
  simp [segScan]

theorem segScan_match1 (c : Char) (rest : List Char) (h : old1 <+: (c :: rest)) :
    segScan (c :: rest) = Seg.occ1 :: segScan ((c :: rest).drop old1.length) := by
  rw [segScan]
  simp only [h, if_pos]
  rw [drop_len_cons old1 old1_ne_nil]

theorem segScan_match2 (c : Char) (rest : List Char) (h1 : ¬ old1 <+: (c :: rest))
    (h2 : old2 <+: (c :: rest)) :
    segScan (c :: rest) = Seg.occ2 :: segScan ((c :: rest).drop old2.length) := by
  rw [segScan]
  simp only [h1, h2, if_pos, if_neg, not_false_iff]
  rw [drop_len_cons old2 old2_ne_nil]

theorem segScan_lit (c : Char) (rest : List Char) (h1 : ¬ old1 <+: (c :: rest))
    (h2 : ¬ old2 <+: (c :: rest)) :
    segScan (c :: rest) = Seg.lit c :: segScan rest := by
  rw [segScan]
  simp [h1, h2]

theorem joinSegs_segOrig_aux : ∀ fuel s, s.length ≤ fuel →
    joinSegs segOrig (segScan s) = s := by
  intro fuel
  induction fuel with
  | zero =>
    intro s hs
    have hnil : s = [] := List.eq_nil_of_length_eq_zero (Nat.le_zero.mp hs)
    subst hnil
    rw [segScan_nil]
    rfl
  | succ fuel ih =>
    intro s hs
    cases s with
    | nil =>
      rw [segScan_nil]
      rfl
    | cons c rest =>
      by_cases h1 : old1 <+: (c :: rest)
      · have hlen : ((c :: rest).drop old1.length).length ≤ fuel := by
          have hp := List.length_pos.mpr old1_ne_nil
          simp only [List.length_cons] at hs
          simp only [List.length_drop, List.length_cons]
          omega
        rw [segScan_match1 c rest h1]
        simp only [joinSegs, segOrig]
        rw [ih _ hlen]
        exact List.prefix_iff_eq_append.mp h1
      · by_cases h2 : old2 <+: (c :: rest)
        · have hlen : ((c :: rest).drop old2.length).length ≤ fuel := by
            have hp := List.length_pos.mpr old2_ne_nil
            simp only [List.length_cons] at hs
            simp only [List.length_drop, List.length_cons]
            omega
          rw [segScan_match2 c rest h1 h2]
          simp only [joinSegs, segOrig]
          rw [ih _ hlen]
          exact List.prefix_iff_eq_append.mp h2
        · have hlen : rest.length ≤ fuel := by
            simp only [List.length_cons] at hs
            omega
          rw [segScan_lit c rest h1 h2]
          simp only [joinSegs, segOrig]
          rw [ih _ hlen]
          rfl

theorem fix_eq_join_aux : ∀ fuel s, s.length ≤ fuel →
    pyRep old2 new2 (pyRep old1 new1 s) = joinSegs segNew (segScan s) := by
  intro fuel
  induction fuel with
  | zero =>
    intro s hs
    have hnil : s = [] := List.eq_nil_of_length_eq_zero (Nat.le_zero.mp hs)
    subst hnil
    rw [segScan_nil, pyRep_nil, pyRep_nil]
    rfl
  | succ fuel ih =>
    intro s hs
    cases s with
    | nil =>
      rw [segScan_nil, pyRep_nil, pyRep_nil]
      rfl
    | cons c rest =>
      by_cases h1 : old1 <+: (c :: rest)
      · have hlen : ((c :: rest).drop old1.length).length ≤ fuel := by
          have hp := List.length_pos.mpr old1_ne_nil
          simp only [List.length_cons] at hs
          simp only [List.length_drop, List.length_cons]
          omega
        rw [pyRep_match old1 new1 old1_ne_nil _ h1]
        rw [pyRep_append_left_of_dropsNoCmp old2 new2 new1 _ fact_new1_old2]
        rw [segScan_match1 c rest h1]
        simp only [joinSegs, segNew]
        rw [ih _ hlen]
      · by_cases h2 : old2 <+: (c :: rest)
        · have hlen : ((c :: rest).drop old2.length).length ≤ fuel := by
            have hp := List.length_pos.mpr old2_ne_nil
            simp only [List.length_cons] at hs
            simp only [List.length_drop, List.length_cons]
            omega
          have hsplit : old2 ++ (c :: rest).drop old2.length = c :: rest :=
            List.prefix_iff_eq_append.mp h2
          have e1 : pyRep old1 new1 (c :: rest)
              = old2 ++ pyRep old1 new1 ((c :: rest).drop old2.length) := by
            conv_lhs => rw [← hsplit]
            rw [pyRep_append_left_of_dropsNoCmp old1 new1 old2 _ fact_old2_old1]
          have e2 : pyRep old2 new2 (old2 ++ pyRep old1 new1 ((c :: rest).drop old2.length))
              = new2 ++ pyRep old2 new2 (pyRep old1 new1 ((c :: rest).drop old2.length)) := by
            rw [pyRep_match old2 new2 old2_ne_nil _ (List.prefix_append _ _), List.drop_left]
          rw [e1, e2, ih _ hlen, segScan_match2 c rest h1 h2]
          simp only [joinSegs, segNew]
        · have hlen : rest.length ≤ fuel := by
            simp only [List.length_cons] at hs
            omega
          rw [pyRep_cons_neg old1 new1 c rest h1]
          have hno : ¬ old2 <+: (c :: pyRep old1 new1 rest) := by
            intro hcon
            rw [← pyRep_cons_neg old1 new1 c rest h1] at hcon
            exact h2 (pyRep_no_create_head old1 new1 old2 fact_old2_new1 _ hcon)
          rw [pyRep_cons_neg old2 new2 _ _ hno]
          rw [segScan_lit c rest h1 h2]
          simp only [joinSegs, segNew]
          rw [ih _ hlen]
          rfl

theorem swap_eq_join_aux : ∀ fuel s, s.length ≤ fuel →
    pyRep old1 new1 (pyRep old2 new2 s) = joinSegs segNew (segScan s) := by
  intro fuel
  induction fuel with
  | zero =>
    intro s hs
    have hnil : s = [] := List.eq_nil_of_length_eq_zero (Nat.le_zero.mp hs)
    subst hnil
    rw [segScan_nil, pyRep_nil, pyRep_nil]
    rfl
  | succ fuel ih =>
    intro s hs
    cases s with
    | nil =>
      rw [segScan_nil, pyRep_nil, pyRep_nil]
      rfl
    | cons c rest =>
      by_cases h1 : old1 <+: (c :: rest)
      · have hlen : ((c :: rest).drop old1.length).length ≤ fuel := by
          have hp := List.length_pos.mpr old1_ne_nil
          simp only [List.length_cons] at hs
          simp only [List.length_drop, List.length_cons]
          omega
        have hsplit : old1 ++ (c :: rest).drop old1.length = c :: rest :=
          List.prefix_iff_eq_append.mp h1
        have e1 : pyRep old2 new2 (c :: rest)
            = old1 ++ pyRep old2 new2 ((c :: rest).drop old1.length) := by
          conv_lhs => rw [← hsplit]
          rw [pyRep_append_left_of_dropsNoCmp old2 new2 old1 _ fact_old1_old2]
        have e2 : pyRep old1 new1 (old1 ++ pyRep old2 new2 ((c :: rest).drop old1.length))
            = new1 ++ pyRep old1 new1 (pyRep old2 new2 ((c :: rest).drop old1.length)) := by
          rw [pyRep_match old1 new1 old1_ne_nil _ (List.prefix_append _ _), List.drop_left]
        rw [e1, e2, ih _ hlen, segScan_match1 c rest h1]
        simp only [joinSegs, segNew]
      · by_cases h2 : old2 <+: (c :: rest)
        · have hlen : ((c :: rest).drop old2.length).length ≤ fuel := by
            have hp := List.length_pos.mpr old2_ne_nil
            simp only [List.length_cons] at hs
            simp only [List.length_drop, List.length_cons]
            omega
          rw [pyRep_match old2 new2 old2_ne_nil _ h2]
          rw [pyRep_append_left_of_dropsNoCmp old1 new1 new2 _ fact_new2_old1]
          rw [segScan_match2 c rest h1 h2]
          simp only [joinSegs, segNew]
          rw [ih _ hlen]
        · have hlen : rest.length ≤ fuel := by
            simp only [List.length_cons] at hs
            omega
          rw [pyRep_cons_neg old2 new2 c rest h2]
          have hno : ¬ old1 <+: (c :: pyRep old2 new2 rest) := by
            intro hcon
            rw [← pyRep_cons_neg old2 new2 c rest h2] at hcon
            exact h1 (pyRep_no_create_head old2 new2 old1 fact_old1_new2 _ hcon)
          rw [pyRep_cons_neg old1 new1 _ _ hno]
          rw [segScan_lit c rest h1 h2]
          simp only [joinSegs, segNew]
          rw [ih _ hlen]
          rfl

theorem fixContent_eq_join (s : List Char) :
    fixContent s = joinSegs segNew (segScan s) :=
  fix_eq_join_aux s.length s (Nat.le_refl _)

theorem segScan_reconstruct (s : List Char) :
    joinSegs segOrig (segScan s) = s :=
  joinSegs_segOrig_aux s.length s (Nat.le_refl _)

/-- A suffix of `b` appearing at the front of the transformed output must
already appear at the front of the input, provided no suffix of `b` is
prefix-comparable with either replacement string. -/
theorem segJoin_no_create (b : List Char)
    (hc1 : dropsNoCmp b new1 = true) (hc2 : dropsNoCmp b new2 = true) :
    ∀ fuel s, s.length ≤ fuel → ∀ i, i ≤ b.length →
      b.drop i <+: joinSegs segNew (segScan s) → b.drop i <+: s := by
  intro fuel
  induction fuel with
  | zero =>
    intro s hs i _ hp
    have hnil : s = [] := List.eq_nil_of_length_eq_zero (Nat.le_zero.mp hs)
    subst hnil
    rw [segScan_nil] at hp
    simpa [joinSegs] using hp
  | succ fuel ih =>
    intro s hs i hi hp
    cases s with
    | nil =>
      rw [segScan_nil] at hp
      simpa [joinSegs] using hp
    | cons c rest =>
      by_cases hi2 : i < b.length
      · by_cases h1 : old1 <+: (c :: rest)
        · exfalso
          rw [segScan_match1 c rest h1] at hp
          simp only [joinSegs, segNew] at hp
          have hcomp := List.prefix_or_prefix_of_prefix hp (List.prefix_append new1 _)
          have hspec := dropsNoCmp_spec b new1 hc1 i hi2
          cases hcomp with
          | inl hx => exact hspec.1 hx
          | inr hx => exact hspec.2 hx
        · by_cases h2 : old2 <+: (c :: rest)
          · exfalso
            rw [segScan_match2 c rest h1 h2] at hp
            simp only [joinSegs, segNew] at hp
            have hcomp := List.prefix_or_prefix_of_prefix hp (List.prefix_append new2 _)
            have hspec := dropsNoCmp_spec b new2 hc2 i hi2
            cases hcomp with
            | inl hx => exact hspec.1 hx
            | inr hx => exact hspec.2 hx
          · rw [segScan_lit c rest h1 h2] at hp
            simp only [joinSegs, segNew] at hp
            rw [List.singleton_append] at hp
            rw [List.drop_eq_getElem_cons hi2] at hp ⊢
            rw [List.cons_prefix_cons] at hp ⊢
            refine ⟨hp.1, ?_⟩
            have hlen : rest.length ≤ fuel := by
              simp only [List.length_cons] at hs
              omega
            exact ih rest hlen (i + 1) (by omega) hp.2
      · have hlen : i = b.length := by omega
        rw [hlen, List.drop_length]
        exact List.nil_prefix

/-- The transformed output contains no occurrence of `b`, for `b` any string
that cannot occur without one of the two patterns occurring at the same
position (in particular `b = old1` and `b = old2` themselves). -/
theorem segJoin_no_occ (b : List Char) (hbne : b ≠ [])
    (hc1 : dropsNoCmp b new1 = true) (hc2 : dropsNoCmp b new2 = true)
    (hd1 : dropsNoCmp new1 b = true) (hd2 : dropsNoCmp new2 b = true)
    (hsel : ∀ t : List Char, b <+: t → old1 <+: t ∨ old2 <+: t) :
    ∀ fuel s, s.length ≤ fuel → ∀ j,
      ¬ b <+: (joinSegs segNew (segScan s)).drop j := by
  intro fuel
  induction fuel with
  | zero =>
    intro s hs j hp
    have hnil : s = [] := List.eq_nil_of_length_eq_zero (Nat.le_zero.mp hs)
    subst hnil
    rw [segScan_nil] at hp
    simp only [joinSegs, List.drop_nil] at hp
    exact hbne (List.prefix_nil.mp hp)
  | succ fuel ih =>
    intro s hs j hp
    cases s with
    | nil =>
      rw [segScan_nil] at hp
      simp only [joinSegs, List.drop_nil] at hp
      exact hbne (List.prefix_nil.mp hp)
    | cons c rest =>
      by_cases h1 : old1 <+: (c :: rest)
      · have hlen : ((c :: rest).drop old1.length).length ≤ fuel := by
          have hpos := List.length_pos.mpr old1_ne_nil
          simp only [List.length_cons] at hs
          simp only [List.length_drop, List.length_cons]
          omega
        rw [segScan_match1 c rest h1] at hp
        simp only [joinSegs, segNew] at hp
        by_cases hj : j ≤ new1.length
        · by_cases hj2 : j < new1.length
          · rw [List.drop_append_of_le_length hj] at hp
            have hcomp := List.prefix_or_prefix_of_prefix hp
              (List.prefix_append (new1.drop j) _)
            have hspec := dropsNoCmp_spec new1 b hd1 j hj2
            cases hcomp with
            | inl hx => exact hspec.2 hx
            | inr hx => exact hspec.1 hx
          · have hj3 : j = new1.length + 0 := by omega
            rw [hj3, List.drop_append] at hp
            exact ih _ hlen 0 hp
        · have hj3 : j = new1.length + (j - new1.length) := by omega
          rw [hj3, List.drop_append] at hp
          exact ih _ hlen _ hp
      · by_cases h2 : old2 <+: (c :: rest)
        · have hlen : ((c :: rest).drop old2.length).length ≤ fuel := by
            have hpos := List.length_pos.mpr old2_ne_nil
            simp only [List.length_cons] at hs
            simp only [List.length_drop, List.length_cons]
            omega
          rw [segScan_match2 c rest h1 h2] at hp
          simp only [joinSegs, segNew] at hp
          by_cases hj : j ≤ new2.length
          · by_cases hj2 : j < new2.length
            · rw [List.drop_append_of_le_length hj] at hp
              have hcomp := List.prefix_or_prefix_of_prefix hp
                (List.prefix_append (new2.drop j) _)
              have hspec := dropsNoCmp_spec new2 b hd2 j hj2
              cases hcomp with
              | inl hx => exact hspec.2 hx
              | inr hx => exact hspec.1 hx
            · have hj3 : j = new2.length + 0 := by omega
              rw [hj3, List.drop_append] at hp
              exact ih _ hlen 0 hp
          · have hj3 : j = new2.length + (j - new2.length) := by omega
            rw [hj3, List.drop_append] at hp
            exact ih _ hlen _ hp
        · have hlen : rest.length ≤ fuel := by
            simp only [List.length_cons] at hs
            omega
          rw [segScan_lit c rest h1 h2] at hp
          simp only [joinSegs, segNew] at hp
          rw [List.singleton_append] at hp
          cases j with
          | zero =>
            simp only [List.drop_zero] at hp
            have hback : b <+: joinSegs segNew (segScan (c :: rest)) := by
              rw [segScan_lit c rest h1 h2]
              simpa [joinSegs, segNew] using hp
            have hfront := segJoin_no_create b hc1 hc2 (c :: rest).length (c :: rest)
              (Nat.le_refl _) 0 (Nat.zero_le _) (by simpa using hback)
            simp only [List.drop_zero] at hfront
            cases hsel (c :: rest) hfront with
            | inl hx => exact h1 hx
            | inr hx => exact h2 hx
          | succ j' =>
            rw [List.drop_succ_cons] at hp
            exact ih rest hlen j' hp

theorem fixContent_no_occ1 (s : List Char) : ∀ j, ¬ old1 <+: (fixContent s).drop j := by
  intro j
  rw [fixContent_eq_join]
  exact segJoin_no_occ old1 old1_ne_nil fact_old1_new1 fact_old1_new2 fact_new1_old1
    fact_new2_old1 (fun _ ht => Or.inl ht) s.length s (Nat.le_refl _) j

theorem fixContent_no_occ2 (s : List Char) : ∀ j, ¬ old2 <+: (fixContent s).drop j := by
  intro j
  rw [fixContent_eq_join]
  exact segJoin_no_occ old2 old2_ne_nil fact_old2_new1 fact_old2_new2 fact_new1_old2
    fact_new2_old2 (fun _ ht => Or.inr ht) s.length s (Nat.le_refl _) j

/-- Prepend a character to the first piece of a split (used by `pySplit` when
the scanned character starts no occurrence). -/
def consHead (c : Char) : List (List Char) → List (List Char)
  | [] => [[c]]
  | p :: ps => (c :: p) :: ps

/-- Split the text at the leftmost non-overlapping occurrences of `old`, the
same scan `pyRep` performs: the result is the list of pieces between (and
around) the replaced occurrences. -/
def pySplit (old : List Char) : List Char → List (List Char)
  | [] => [[]]
  | c :: rest =>
    if old <+: (c :: rest) then
      [] :: pySplit old (rest.drop (old.length - 1))
    else
      consHead c (pySplit old rest)
termination_by s => s.length
decreasing_by
  · simp only [List.length_drop, List.length_cons]
    omega
  · simp only [List.length_cons]
    omega

/-- Interleave the pieces of a split with a separator. -/
def joinWith (sep : List Char) : List (List Char) → List Char
  | [] => []
  | [p] => p
  | p :: q :: ps => p ++ sep ++ joinWith sep (q :: ps)

theorem pySplit_nil (old : List Char) : pySplit old [] = [[]] := by
  simp [pySplit]

theorem pySplit_cons_pos (old : List Char) (c : Char) (rest : List Char)
    (h : old <+: (c :: rest)) :
    pySplit old (c :: rest) = [] :: pySplit old (rest.drop (old.length - 1)) := by
  rw [pySplit]
  simp [h]

theorem pySplit_cons_neg (old : List Char) (c : Char) (rest : List Char)
    (h : ¬ old <+: (c :: rest)) :
    pySplit old (c :: rest) = consHead c (pySplit old rest) := by
  rw [pySplit]
  simp [h]

theorem consHead_ne_nil (c : Char) (P : List (List Char)) : consHead c P ≠ [] := by
  cases P <;> simp [consHead]

theorem pySplit_ne_nil (old : List Char) (s : List Char) : pySplit old s ≠ [] := by
  cases s with
  | nil =>
    rw [pySplit_nil]
    simp
  | cons c rest =>
    by_cases h : old <+: (c :: rest)
    · rw [pySplit_cons_pos old c rest h]
      simp
    · rw [pySplit_cons_neg old c rest h]
      exact consHead_ne_nil c _

theorem joinWith_cons_cons (sep : List Char) (c : Char) (p : List Char)
    (ps : List (List Char)) :
    joinWith sep ((c :: p) :: ps) = c :: joinWith sep (p :: ps) := by
  cases ps <;> simp [joinWith]

theorem joinWith_consHead (sep : List Char) (c : Char) (P : List (List Char)) (h : P ≠ []) :
    joinWith sep (consHead c P) = c :: joinWith sep P := by
  cases P with
  | nil => exact absurd rfl h
  | cons p ps =>
    rw [consHead]
    exact joinWith_cons_cons sep c p ps

theorem joinWith_nil_cons (sep : List Char) (P : List (List Char)) (h : P ≠ []) :
    joinWith sep ([] :: P) = sep ++ joinWith sep P := by
  cases P with
  | nil => exact absurd rfl h
  | cons p ps => simp [joinWith]

theorem head_prefix_joinWith (sep : List Char) (p : List Char) (ps : List (List Char)) :
    p <+: joinWith sep (p :: ps) := by
  cases ps with
  | nil => simp [joinWith]
  | cons q ps' =>
    rw [joinWith]
    simp [List.append_assoc]

theorem pySplit_reconstruct_aux (old : List Char) (hne : old ≠ []) :
    ∀ fuel s, s.length ≤ fuel → joinWith old (pySplit old s) = s := by
  intro fuel
  induction fuel with
  | zero =>
    intro s hs
    have hnil : s = [] := List.eq_nil_of_length_eq_zero (Nat.le_zero.mp hs)
    subst hnil
    rw [pySplit_nil]
    rfl
  | succ fuel ih =>
    intro s hs
    cases s with
    | nil =>
      rw [pySplit_nil]
      rfl
    | cons c rest =>
      by_cases h : old <+: (c :: rest)
      · have hlen : (rest.drop (old.length - 1)).length ≤ fuel := by
          simp only [List.length_cons] at hs
          simp only [List.length_drop]
          omega
        rw [pySplit_cons_pos old c rest h]
        rw [joinWith_nil_cons old _ (pySplit_ne_nil old _)]
        rw [ih _ hlen]
        rw [← drop_len_cons old hne c rest]
        exact List.prefix_iff_eq_append.mp h
      · have hlen : rest.length ≤ fuel := by
          simp only [List.length_cons] at hs
          omega
        rw [pySplit_cons_neg old c rest h]
        rw [joinWith_consHead old c _ (pySplit_ne_nil old _)]
        rw [ih _ hlen]

theorem pySplit_rep_aux (old new : List Char) :
    ∀ fuel s, s.length ≤ fuel → joinWith new (pySplit old s) = pyRep old new s := by
  intro fuel
  induction fuel with
  | zero =>
    intro s hs
    have hnil : s = [] := List.eq_nil_of_length_eq_zero (Nat.le_zero.mp hs)
    subst hnil
    rw [pySplit_nil, pyRep_nil]
    rfl
  | succ fuel ih =>
    intro s hs
    cases s with
    | nil =>
      rw [pySplit_nil, pyRep_nil]
      rfl
    | cons c rest =>
      by_cases h : old <+: (c :: rest)
      · have hlen : (rest.drop (old.length - 1)).length ≤ fuel := by
          simp only [List.length_cons] at hs
          simp only [List.length_drop]
          omega
        rw [pySplit_cons_pos old c rest h]
        rw [joinWith_nil_cons new _ (pySplit_ne_nil old _)]
        rw [ih _ hlen]
        rw [pyRep_cons_pos old new c rest h]
      · have hlen : rest.length ≤ fuel := by
          simp only [List.length_cons] at hs
          omega
        rw [pySplit_cons_neg old c rest h]
        rw [joinWith_consHead new c _ (pySplit_ne_nil old _)]
        rw [ih _ hlen]
        rw [pyRep_cons_neg old new c rest h]

/-- Reconstruction: interleaving the pieces of the split with the pattern
itself gives back the input. -/
theorem pySplit_reconstruct (old : List Char) (hne : old ≠ []) (s : List Char) :
    joinWith old (pySplit old s) = s :=
  pySplit_reconstruct_aux old hne s.length s (Nat.le_refl _)

/-- Replacement: interleaving the pieces of the split with the replacement
string gives exactly the result of `pyRep`. -/
theorem pySplit_rep (old new : List Char) (s : List Char) :
    joinWith new (pySplit old s) = pyRep old new s :=
  pySplit_rep_aux old new s.length s (Nat.le_refl _)

/-- Completeness of the scan: no piece of the split contains an occurrence of
the pattern, so every occurrence found by the left-to-right scan is replaced. -/
theorem pySplit_no_occ_aux (old : List Char) (hne : old ≠ []) :
    ∀ fuel s, s.length ≤ fuel → ∀ p ∈ pySplit old s, ∀ j, ¬ old <+: p.drop j := by
  intro fuel
  induction fuel with
  | zero =>
    intro s hs p hp j hcon
    have hnil : s = [] := List.eq_nil_of_length_eq_zero (Nat.le_zero.mp hs)
    subst hnil
    rw [pySplit_nil] at hp
    simp at hp
    subst hp
    simp only [List.drop_nil] at hcon
    exact hne (List.prefix_nil.mp hcon)
  | succ fuel ih =>
    intro s hs p hp j hcon
    cases s with
    | nil =>
      rw [pySplit_nil] at hp
      simp at hp
      subst hp
      simp only [List.drop_nil] at hcon
      exact hne (List.prefix_nil.mp hcon)
    | cons c rest =>
      by_cases h : old <+: (c :: rest)
      · have hlen : (rest.drop (old.length - 1)).length ≤ fuel := by
          simp only [List.length_cons] at hs
          simp only [List.length_drop]
          omega
        rw [pySplit_cons_pos old c rest h] at hp
        rcases List.mem_cons.mp hp with hp1 | hp2
        · subst hp1
          simp only [List.drop_nil] at hcon
          exact hne (List.prefix_nil.mp hcon)
        · exact ih _ hlen p hp2 j hcon
      · have hlen : rest.length ≤ fuel := by
          simp only [List.length_cons] at hs
          omega
        rw [pySplit_cons_neg old c rest h] at hp
        obtain ⟨p0, ps, hP⟩ : ∃ p0 ps, pySplit old rest = p0 :: ps := by
          cases hP : pySplit old rest with
          | nil => exact absurd hP (pySplit_ne_nil old rest)
          | cons p0 ps => exact ⟨p0, ps, rfl⟩
        rw [hP, consHead] at hp
        rcases List.mem_cons.mp hp with hp1 | hp2
        · subst hp1
          cases j with
          | zero =>
            simp only [List.drop_zero] at hcon
            have hp0 : p0 <+: rest := by
              have := head_prefix_joinWith old p0 ps
              rw [← hP] at this
              rw [pySplit_reconstruct old hne rest] at this
              exact this
            have : (c :: p0) <+: (c :: rest) := List.cons_prefix_cons.mpr ⟨rfl, hp0⟩
            exact h (hcon.trans this)
          | succ j' =>
            rw [List.drop_succ_cons] at hcon
            exact ih _ hlen p0 (hP ▸ List.mem_cons_self p0 ps) j' hcon
        · exact ih _ hlen p (hP ▸ List.mem_cons_of_mem p0 hp2) j hcon

theorem pySplit_no_occ (old : List Char) (hne : old ≠ []) (s : List Char) :
    ∀ p ∈ pySplit old s, ∀ j, ¬ old <+: p.drop j :=
  pySplit_no_occ_aux old hne s.length s (Nat.le_refl _)

/-- Process state for a run of the script: the target file (`none` when the
file is missing), the in-memory `content` variable, the lines printed to
standard output, and whether an unhandled error terminated the run. -/
structure PState where
  fs : Option (List Char)
  buf : Option (List Char)
  out : List (List Char)
  err : Bool
deriving DecidableEq

/-- Initial state: target file as given, nothing read, nothing printed. -/
def initState (fs : Option (List Char)) : PState :=
  { fs := fs, buf := none, out := [], err := false }

/-- Source lines 3-4: `open(...).read()`; a missing file raises an unhandled
error. -/
def runRead (st : PState) : PState :=
  match st.fs with
  | none => { st with err := true }
  | some c => { st with buf := some c }

/-- Source lines 7-15: the two `content.replace` calls. -/
def runFix (st : PState) : PState :=
  { st with buf := st.buf.map fixContent }

/-- Source lines 17-18: `open(..., 'w').write(content)`, truncating the prior
contents. -/
def runWrite (st : PState) : PState :=
  match st.buf with
  | none => st
  | some c => { st with fs := some c }

/-- Source line 20: `print(...)`. -/
def runPrint (st : PState) : PState :=
  { st with out := st.out ++ [confirmMsg] }

/-- A full run of the script on a target file: read, transform, write, print;
an error in the read step terminates the run before the remaining steps. -/
def runScript (fs : Option (List Char)) : PState :=
  let st1 := runRead (initState fs)
  if st1.err then st1 else runPrint (runWrite (runFix st1))

theorem runScript_some (c : List Char) :
    runScript (some c) =
      { fs := some (fixContent c), buf := some (fixContent c),
        out := [confirmMsg], err := false } := rfl

theorem runScript_none :
    runScript none = { fs := none, buf := none, out := [], err := true } := rfl

theorem fixContent_of_noOcc (s : List Char) (h1 : noOccB old1 s = true)
    (h2 : noOccB old2 s = true) : fixContent s = s := by
  show pyRep old2 new2 (pyRep old1 new1 s) = s
  rw [pyRep_of_no_occ old1 new1 s (noOccB_spec old1 s old1_ne_nil h1)]
  exact pyRep_of_no_occ old2 new2 s (noOccB_spec old2 s old2_ne_nil h2)

/-- Claim C4: when the target file is missing, the read step fails, the run
terminates with an error before the write step, nothing is printed, and the
filesystem is unchanged. -/
theorem claim_c4 :
    (runScript none).err = true ∧ (runScript none).fs = none ∧
      (runScript none).out = [] ∧ runScript none = runRead (initState none) :=
  ⟨rfl, rfl, rfl, rfl⟩

/-- Claim C5: on a content containing neither pattern, the script rewrites the
file with identical content and still prints the confirmation message. -/
theorem claim_c5 (s : List Char) (h1 : noOccB old1 s = true) (h2 : noOccB old2 s = true) :
    runScript (some s) =
      { fs := some s, buf := some s, out := [confirmMsg], err := false } := by
  rw [runScript_some, fixContent_of_noOcc s h1 h2]

theorem claim_c5_witness :
    runScript (some ['h', 'i']) =
      { fs := some ['h', 'i'], buf := some ['h', 'i'],
        out := [confirmMsg], err := false } :=
  claim_c5 ['h', 'i'] (by decide) (by decide)

/-- Claim C6: whenever the read succeeds the script prints exactly the one
fixed confirmation string, for every content, and terminates without error. -/
theorem claim_c6 (s : List Char) :
    (runScript (some s)).out = [confirmMsg] ∧ (runScript (some s)).err = false :=
  ⟨rfl, rfl⟩

/-- The full visible system state a run could in principle depend on: the
target file plus other files, environment variables and command-line
arguments the script never consults. -/
structure SysState where
  target : Option (List Char)
  otherFiles : List (List Char × List Char)
  envVars : List (List Char × List Char)
  argv : List (List Char)

/-- The script's run as a function of the whole system state: only the target
file is ever read (the source opens one hardcoded path and nothing else). -/
def runOnSys (w : SysState) : PState :=
  runScript w.target

/-- Claim C8: the script is deterministic — two runs whose target files hold
the same content produce identical written contents and identical standard
output, whatever the rest of the system looks like. -/
theorem claim_c8 (w1 w2 : SysState) (h : w1.target = w2.target) :
    (runOnSys w1).fs = (runOnSys w2).fs ∧ (runOnSys w1).out = (runOnSys w2).out := by
  unfold runOnSys
  rw [h]
  exact ⟨rfl, rfl⟩

/-- A concrete system state with an empty environment. -/
def sysW1 : SysState :=
  { target := some ['a'], otherFiles := [], envVars := [], argv := [] }

/-- A concrete system state with the same target content as `sysW1` but
different other files, environment and arguments. -/
def sysW2 : SysState :=
  { target := some ['a'], otherFiles := [(['x'], ['y'])], envVars := [(['e'], ['v'])], argv := [['z']] }

theorem claim_c8_witness :
    (runOnSys sysW1).fs = (runOnSys sysW2).fs
      ∧ (runOnSys sysW1).out = (runOnSys sysW2).out :=
  claim_c8 sysW1 sysW2 rfl

theorem pyRep_self (old new : List Char) (hne : old ≠ []) : pyRep old new old = new := by
  rw [pyRep_match old new hne old List.prefix_rfl, List.drop_length, pyRep_nil]
  simp

/-- Counterexample to claim C1 as stated: the content `old2` contains no
occurrence of the first pattern, yet the written output differs from it —
characters not belonging to any occurrence of the first pattern are changed
(by the second substitution). -/
theorem claim_c1_cex :
    noOccB old1 old2 = true ∧ (runScript (some old2)).fs = some new2 ∧ new2 ≠ old2 := by
  refine ⟨by decide, ?_, by decide⟩
  show some (pyRep old2 new2 (pyRep old1 new1 old2)) = some new2
  rw [pyRep_of_no_occ old1 new1 old2 (noOccB_spec old1 old2 old1_ne_nil (by decide))]
  rw [pyRep_self old2 new2 old2_ne_nil]

/-- Claim C1 (amended): the first substitution replaces every occurrence of
the first pattern with its replacement and leaves every character not part of
such an occurrence unchanged in its own result; the written output is that
result with the second substitution then applied to it. -/
theorem claim_c1 (s : List Char) :
    joinWith old1 (pySplit old1 s) = s
      ∧ pyRep old1 new1 s = joinWith new1 (pySplit old1 s)
      ∧ (∀ p ∈ pySplit old1 s, ∀ j, ¬ old1 <+: p.drop j)
      ∧ (runScript (some s)).fs = some (pyRep old2 new2 (pyRep old1 new1 s)) :=
  ⟨pySplit_reconstruct old1 old1_ne_nil s, (pySplit_rep old1 new1 s).symm,
    pySplit_no_occ old1 old1_ne_nil s, rfl⟩

/-- Counterexample to claim C2 as stated: the content `old1` contains no
occurrence of the second pattern, yet the written output differs from it —
characters not belonging to any occurrence of the second pattern are changed
(by the first substitution). -/
theorem claim_c2_cex :
    noOccB old2 old1 = true ∧ (runScript (some old1)).fs = some new1 ∧ new1 ≠ old1 := by
  refine ⟨by decide, ?_, by decide⟩
  show some (pyRep old2 new2 (pyRep old1 new1 old1)) = some new1
  rw [pyRep_self old1 new1 old1_ne_nil]
  exact congrArg some
    (pyRep_of_no_occ old2 new2 new1 (noOccB_spec old2 new1 old2_ne_nil (by decide)))

/-- Claim C2 (amended): the second substitution replaces every occurrence of
the second pattern in its input — the result of the first substitution — with
its replacement, and leaves every character of that input not part of such an
occurrence unchanged; the written output is exactly this result. -/
theorem claim_c2 (s : List Char) :
    joinWith old2 (pySplit old2 (pyRep old1 new1 s)) = pyRep old1 new1 s
      ∧ fixContent s = joinWith new2 (pySplit old2 (pyRep old1 new1 s))
      ∧ (∀ p ∈ pySplit old2 (pyRep old1 new1 s), ∀ j, ¬ old2 <+: p.drop j)
      ∧ (runScript (some s)).fs = some (fixContent s) :=
  ⟨pySplit_reconstruct old2 old2_ne_nil _, (pySplit_rep old2 new2 _).symm,
    pySplit_no_occ old2 old2_ne_nil _, rfl⟩

/-- Claim C3: running the script twice in succession on the same file leaves
the same final file content as running it once — the composed transformation
is idempotent. -/
theorem claim_c3 (c : List Char) :
    (runScript ((runScript (some c)).fs)).fs = (runScript (some c)).fs := by
  have idem : fixContent (fixContent c) = fixContent c := by
    show pyRep old2 new2 (pyRep old1 new1 (fixContent c)) = fixContent c
    rw [pyRep_of_no_occ old1 new1 _ (fixContent_no_occ1 c)]
    exact pyRep_of_no_occ old2 new2 _ (fixContent_no_occ2 c)
  show some (fixContent (fixContent c)) = some (fixContent c)
  rw [idem]

/-- `old1` with every letter upper-cased: a case-variant of the first pattern. -/
def caseVariant : List Char :=
  "RECEIVECOMPLETION: \x7b [WEAK SELF] (COMPLETION: SUBSCRIBERS.COMPLETION<E>) IN".toList

/-- `old1` with its one `.` (a regex metacharacter, which in a regex search
would match any character) replaced by `X`. -/
def dotVariant : List Char :=
  "receiveCompletion: \x7b [weak self] (completion: SubscribersXCompletion<e>) in".toList

/-- Claim C7: the substitutions are exact, case-sensitive, literal string
replacements with no pattern matching.  For every input content, the content
splits into exact occurrences of the two target substrings and literal
characters; only the exact occurrences are changed in the written output — any
segment whose written image differs from its original characters is an exact
occurrence of one of the two targets — and a content containing no exact
occurrence of either target (however close: different case, or different text
at any character) is written back entirely unchanged.  In particular a
case-variant of the first pattern (same letters up to case) is left entirely
unchanged by a run, and so is a variant differing from the first pattern only
at its `.` — which a regex engine treating `.` as a metacharacter would have
matched. -/
theorem claim_c7 (s : List Char) :
    (joinSegs segOrig (segScan s) = s
        ∧ (runScript (some s)).fs = some (joinSegs segNew (segScan s))
        ∧ (∀ g ∈ segScan s, segNew g ≠ segOrig g →
            segOrig g = old1 ∨ segOrig g = old2))
      ∧ (noOccB old1 s = true → noOccB old2 s = true →
          (runScript (some s)).fs = some s)
      ∧ caseVariant.map Char.toLower = old1.map Char.toLower
      ∧ caseVariant ≠ old1
      ∧ (runScript (some caseVariant)).fs = some caseVariant
      ∧ dotVariant.length = old1.length
      ∧ dotVariant ≠ old1
      ∧ (runScript (some dotVariant)).fs = some dotVariant := by
  refine ⟨⟨segScan_reconstruct s, ?_, ?_⟩, ?_, by decide, by decide, ?_,
    by decide, by decide, ?_⟩
  · show some (fixContent s) = some (joinSegs segNew (segScan s))
    rw [fixContent_eq_join s]
  · intro g _ hne
    cases g with
    | occ1 => exact Or.inl rfl
    | occ2 => exact Or.inr rfl
    | lit c => exact absurd rfl hne
  · intro h1 h2
    show some (fixContent s) = some s
    rw [fixContent_of_noOcc s h1 h2]
  · show some (fixContent caseVariant) = some caseVariant
    rw [fixContent_of_noOcc caseVariant (by decide) (by decide)]
  · show some (fixContent dotVariant) = some dotVariant
    rw [fixContent_of_noOcc dotVariant (by decide) (by decide)]

theorem claim_c7_witness :
    (runScript (some ['o', 'k'])).fs = some ['o', 'k'] :=
  (claim_c7 ['o', 'k']).2.1 (by decide) (by decide)

/-- Claim C9: the two substitutions commute — applying the second replacement
before the first yields exactly the same content as the order the script uses,
which is the script's written content. -/
theorem claim_c9 (s : List Char) :
    pyRep old1 new1 (pyRep old2 new2 s) = pyRep old2 new2 (pyRep old1 new1 s)
      ∧ fixContent s = pyRep old2 new2 (pyRep old1 new1 s) := by
  refine ⟨?_, rfl⟩
  rw [fix_eq_join_aux s.length s (Nat.le_refl _)]
  exact swap_eq_join_aux s.length s (Nat.le_refl _)

/-- No proper (nonempty-index) suffix of `a` is prefix-comparable with `b`:
like `dropsNoCmp` but skipping index `0`, used for self-overlap checks. -/
def dropsNoCmpPos (a b : List Char) : Bool :=
  (List.range a.length).all fun i => i == 0 || !(cmpB (a.drop i) b)

theorem dropsNoCmpPos_spec (a b : List Char) (h : dropsNoCmpPos a b = true) :
    ∀ i, 0 < i → i < a.length → ¬ (a.drop i <+: b) ∧ ¬ (b <+: a.drop i) := by
  intro i hpos hi
  have hall := List.all_eq_true.mp h i (List.mem_range.mpr hi)
  have hne : (i == 0) = false := by
    simp [Nat.pos_iff_ne_zero.mp hpos]
  rw [hne, Bool.false_or] at hall
  have h1 : (a.drop i).isPrefixOf b = false ∧ b.isPrefixOf (a.drop i) = false := by
    simpa [cmpB] using hall
  refine ⟨fun hp => ?_, fun hp => ?_⟩
  · have h2 := List.isPrefixOf_iff_prefix.mpr hp
    rw [h1.1] at h2
    simp at h2
  · have h2 := List.isPrefixOf_iff_prefix.mpr hp
    rw [h1.2] at h2
    simp at h2

theorem fact_old1_self : dropsNoCmpPos old1 old1 = true := by decide

theorem fact_old2_self : dropsNoCmpPos old2 old2 = true := by decide

theorem no_prefix_append_of_dropsNoCmpPos (b p t : List Char)
    (h : dropsNoCmpPos p b = true) :
    ∀ j, 0 < j → j < p.length → ¬ b <+: (p.drop j ++ t) := by
  intro j hpos hj hb
  have hcomp := List.prefix_or_prefix_of_prefix hb (List.prefix_append (p.drop j) t)
  have hspec := dropsNoCmpPos_spec p b h j hpos hj
  cases hcomp with
  | inl h1 => exact hspec.2 h1
  | inr h1 => exact hspec.1 h1

theorem drop_of_prefix_split (w : List Char) (s : List Char) (h : w <+: s) (j : Nat)
    (hj : j ≤ w.length) : s.drop j = w.drop j ++ s.drop w.length := by
  have hsplit : w ++ s.drop w.length = s := List.prefix_iff_eq_append.mp h
  conv_lhs => rw [← hsplit]
  rw [List.drop_append_of_le_length hj]

/-- Any occurrence of the first pattern in the input is seen by the combined
scan: it reports an occurrence-1 segment. -/
theorem occ1_in_scan_aux : ∀ fuel s, s.length ≤ fuel → ∀ j, old1 <+: s.drop j →
    Seg.occ1 ∈ segScan s := by
  intro fuel
  induction fuel with
  | zero =>
    intro s hs j hj
    have hnil : s = [] := List.eq_nil_of_length_eq_zero (Nat.le_zero.mp hs)
    subst hnil
    simp only [List.drop_nil] at hj
    exact absurd (List.prefix_nil.mp hj) old1_ne_nil
  | succ fuel ih =>
    intro s hs j hj
    cases s with
    | nil =>
      simp only [List.drop_nil] at hj
      exact absurd (List.prefix_nil.mp hj) old1_ne_nil
    | cons c rest =>
      by_cases h1 : old1 <+: (c :: rest)
      · rw [segScan_match1 c rest h1]
        exact List.mem_cons_self _ _
      · by_cases h2 : old2 <+: (c :: rest)
        · have hlen : ((c :: rest).drop old2.length).length ≤ fuel := by
            have hpos := List.length_pos.mpr old2_ne_nil
            simp only [List.length_cons] at hs
            simp only [List.length_drop, List.length_cons]
            omega
          rw [segScan_match2 c rest h1 h2]
          rcases Nat.lt_or_ge j old2.length with hlt | hge
          · exfalso
            rw [drop_of_prefix_split old2 (c :: rest) h2 j (Nat.le_of_lt hlt)] at hj
            exact no_prefix_append_of_dropsNoCmp old1 old2 _ fact_old2_old1 j hlt hj
          · have hdj : (c :: rest).drop j
                = ((c :: rest).drop old2.length).drop (j - old2.length) := by
              rw [List.drop_drop]
              congr 1
              omega
            rw [hdj] at hj
            exact List.mem_cons_of_mem _ (ih _ hlen _ hj)
        · have hlen : rest.length ≤ fuel := by
            simp only [List.length_cons] at hs
            omega
          rw [segScan_lit c rest h1 h2]
          cases j with
          | zero =>
            simp only [List.drop_zero] at hj
            exact absurd hj h1
          | succ j' =>
            rw [List.drop_succ_cons] at hj
            exact List.mem_cons_of_mem _ (ih rest hlen j' hj)

/-- Any occurrence of the second pattern in the input is seen by the combined
scan: it reports an occurrence-2 segment. -/
theorem occ2_in_scan_aux : ∀ fuel s, s.length ≤ fuel → ∀ j, old2 <+: s.drop j →
    Seg.occ2 ∈ segScan s := by
  intro fuel
  induction fuel with
  | zero =>
    intro s hs j hj
    have hnil : s = [] := List.eq_nil_of_length_eq_zero (Nat.le_zero.mp hs)
    subst hnil
    simp only [List.drop_nil] at hj
    exact absurd (List.prefix_nil.mp hj) old2_ne_nil
  | succ fuel ih =>
    intro s hs j hj
    cases s with
    | nil =>
      simp only [List.drop_nil] at hj
      exact absurd (List.prefix_nil.mp hj) old2_ne_nil
    | cons c rest =>
      by_cases h1 : old1 <+: (c :: rest)
      · have hlen : ((c :: rest).drop old1.length).length ≤ fuel := by
          have hpos := List.length_pos.mpr old1_ne_nil
          simp only [List.length_cons] at hs
          simp only [List.length_drop, List.length_cons]
          omega
        rw [segScan_match1 c rest h1]
        rcases Nat.lt_or_ge j old1.length with hlt | hge
        · exfalso
          rw [drop_of_prefix_split old1 (c :: rest) h1 j (Nat.le_of_lt hlt)] at hj
          exact no_prefix_append_of_dropsNoCmp old2 old1 _ fact_old1_old2 j hlt hj
        · have hdj : (c :: rest).drop j
              = ((c :: rest).drop old1.length).drop (j - old1.length) := by
            rw [List.drop_drop]
            congr 1
            omega
          rw [hdj] at hj
          exact List.mem_cons_of_mem _ (ih _ hlen _ hj)
      · by_cases h2 : old2 <+: (c :: rest)
        · have hlen : ((c :: rest).drop old2.length).length ≤ fuel := by
            have hpos := List.length_pos.mpr old2_ne_nil
            simp only [List.length_cons] at hs
            simp only [List.length_drop, List.length_cons]
            omega
          rw [segScan_match2 c rest h1 h2]
          rcases Nat.eq_zero_or_pos j with h0 | hpos
          · subst h0
            exact List.mem_cons_self _ _
          · rcases Nat.lt_or_ge j old2.length with hlt | hge
            · exfalso
              rw [drop_of_prefix_split old2 (c :: rest) h2 j (Nat.le_of_lt hlt)] at hj
              exact no_prefix_append_of_dropsNoCmpPos old2 old2 _ fact_old2_self j hpos hlt hj
            · have hdj : (c :: rest).drop j
                  = ((c :: rest).drop old2.length).drop (j - old2.length) := by
                rw [List.drop_drop]
                congr 1
                omega
              rw [hdj] at hj
              exact List.mem_cons_of_mem _ (ih _ hlen _ hj)
        · have hlen : rest.length ≤ fuel := by
            simp only [List.length_cons] at hs
            omega
          rw [segScan_lit c rest h1 h2]
          cases j with
          | zero =>
            simp only [List.drop_zero] at hj
            exact absurd hj h2
          | succ j' =>
            rw [List.drop_succ_cons] at hj
            exact List.mem_cons_of_mem _ (ih rest hlen j' hj)

/-- Soundness: an occurrence-1 segment reported by the scan corresponds to an
actual occurrence of the first pattern in the input. -/
theorem scan_occ1_sound_aux : ∀ fuel s, s.length ≤ fuel → Seg.occ1 ∈ segScan s →
    ∃ j, old1 <+: s.drop j := by
  intro fuel
  induction fuel with
  | zero =>
    intro s hs hmem
    have hnil : s = [] := List.eq_nil_of_length_eq_zero (Nat.le_zero.mp hs)
    subst hnil
    rw [segScan_nil] at hmem
    simp at hmem
  | succ fuel ih =>
    intro s hs hmem
    cases s with
    | nil =>
      rw [segScan_nil] at hmem
      simp at hmem
    | cons c rest =>
      by_cases h1 : old1 <+: (c :: rest)
      · exact ⟨0, by simpa using h1⟩
      · by_cases h2 : old2 <+: (c :: rest)
        · have hlen : ((c :: rest).drop old2.length).length ≤ fuel := by
            have hpos := List.length_pos.mpr old2_ne_nil
            simp only [List.length_cons] at hs
            simp only [List.length_drop, List.length_cons]
            omega
          rw [segScan_match2 c rest h1 h2] at hmem
          have hmem2 : Seg.occ1 ∈ segScan ((c :: rest).drop old2.length) := by
            rcases List.mem_cons.mp hmem with hx | hx
            · exact absurd hx (by simp)
            · exact hx
          obtain ⟨j, hj⟩ := ih _ hlen hmem2
          refine ⟨old2.length + j, ?_⟩
          rw [← List.drop_drop]
          exact hj
        · have hlen : rest.length ≤ fuel := by
            simp only [List.length_cons] at hs
            omega
          rw [segScan_lit c rest h1 h2] at hmem
          have hmem2 : Seg.occ1 ∈ segScan rest := by
            rcases List.mem_cons.mp hmem with hx | hx
            · exact absurd hx (by simp)
            · exact hx
          obtain ⟨j, hj⟩ := ih rest hlen hmem2
          exact ⟨j + 1, by simpa [List.drop_succ_cons] using hj⟩

/-- Soundness: an occurrence-2 segment reported by the scan corresponds to an
actual occurrence of the second pattern in the input. -/
theorem scan_occ2_sound_aux : ∀ fuel s, s.length ≤ fuel → Seg.occ2 ∈ segScan s →
    ∃ j, old2 <+: s.drop j := by
  intro fuel
  induction fuel with
  | zero =>
    intro s hs hmem
    have hnil : s = [] := List.eq_nil_of_length_eq_zero (Nat.le_zero.mp hs)
    subst hnil
    rw [segScan_nil] at hmem
    simp at hmem
  | succ fuel ih =>
    intro s hs hmem
    cases s with
    | nil =>
      rw [segScan_nil] at hmem
      simp at hmem
    | cons c rest =>
      by_cases h1 : old1 <+: (c :: rest)
      · have hlen : ((c :: rest).drop old1.length).length ≤ fuel := by
          have hpos := List.length_pos.mpr old1_ne_nil
          simp only [List.length_cons] at hs
          simp only [List.length_drop, List.length_cons]
          omega
        rw [segScan_match1 c rest h1] at hmem
        have hmem2 : Seg.occ2 ∈ segScan ((c :: rest).drop old1.length) := by
          rcases List.mem_cons.mp hmem with hx | hx
          · exact absurd hx (by simp)
          · exact hx
        obtain ⟨j, hj⟩ := ih _ hlen hmem2
        refine ⟨old1.length + j, ?_⟩
        rw [← List.drop_drop]
        exact hj
      · by_cases h2 : old2 <+: (c :: rest)
        · exact ⟨0, by simpa using h2⟩
        · have hlen : rest.length ≤ fuel := by
            simp only [List.length_cons] at hs
            omega
          rw [segScan_lit c rest h1 h2] at hmem
          have hmem2 : Seg.occ2 ∈ segScan rest := by
            rcases List.mem_cons.mp hmem with hx | hx
            · exact absurd hx (by simp)
            · exact hx
          obtain ⟨j, hj⟩ := ih rest hlen hmem2
          exact ⟨j + 1, by simpa [List.drop_succ_cons] using hj⟩

theorem segNew_len_le (g : Seg) : (segNew g).length ≤ (segOrig g).length := by
  cases g with
  | occ1 => decide
  | occ2 => decide
  | lit c => simp [segNew, segOrig]

theorem segNew_len_lt_occ1 : (segNew Seg.occ1).length < (segOrig Seg.occ1).length := by
  decide

theorem segNew_len_lt_occ2 : (segNew Seg.occ2).length < (segOrig Seg.occ2).length := by
  decide

theorem joinSegs_len_le : ∀ gs : List Seg,
    (joinSegs segNew gs).length ≤ (joinSegs segOrig gs).length := by
  intro gs
  induction gs with
  | nil => simp [joinSegs]
  | cons g gs' ih =>
    simp only [joinSegs, List.length_append]
    have := segNew_len_le g
    omega

theorem joinSegs_len_lt : ∀ gs : List Seg, Seg.occ1 ∈ gs ∨ Seg.occ2 ∈ gs →
    (joinSegs segNew gs).length < (joinSegs segOrig gs).length := by
  intro gs
  induction gs with
  | nil =>
    intro h
    simp at h
  | cons g gs' ih =>
    intro h
    simp only [joinSegs, List.length_append]
    by_cases hin : Seg.occ1 ∈ gs' ∨ Seg.occ2 ∈ gs'
    · have h2 := ih hin
      have h1 := segNew_len_le g
      omega
    · have hg : g = Seg.occ1 ∨ g = Seg.occ2 := by
        rcases h with h | h
        · rcases List.mem_cons.mp h with hx | hx
          · exact Or.inl hx.symm
          · exact absurd (Or.inl hx) hin
        · rcases List.mem_cons.mp h with hx | hx
          · exact Or.inr hx.symm
          · exact absurd (Or.inr hx) hin
      have h2 := joinSegs_len_le gs'
      rcases hg with hg | hg <;> subst hg
      · have := segNew_len_lt_occ1
        omega
      · have := segNew_len_lt_occ2
        omega

theorem joinSegs_eq_all_lit : ∀ gs : List Seg, Seg.occ1 ∉ gs → Seg.occ2 ∉ gs →
    joinSegs segNew gs = joinSegs segOrig gs := by
  intro gs
  induction gs with
  | nil =>
    intro _ _
    rfl
  | cons g gs' ih =>
    intro h1 h2
    cases g with
    | occ1 => exact absurd (List.mem_cons_self _ _) h1
    | occ2 => exact absurd (List.mem_cons_self _ _) h2
    | lit c =>
      simp only [joinSegs, segNew, segOrig]
      rw [ih (fun hx => h1 (List.mem_cons_of_mem _ hx))
        (fun hx => h2 (List.mem_cons_of_mem _ hx))]

/-- Claim C10: the script never increases the file size: the written content
is never longer than the input, with equality exactly when neither pattern
occurs — both replacements are strictly shorter than the patterns they
replace. -/
theorem claim_c10 (s : List Char) :
    (fixContent s).length ≤ s.length
      ∧ ((fixContent s).length = s.length ↔
          ((∀ j, ¬ old1 <+: s.drop j) ∧ (∀ j, ¬ old2 <+: s.drop j)))
      ∧ new1.length < old1.length ∧ new2.length < old2.length := by
  have hout : fixContent s = joinSegs segNew (segScan s) := fixContent_eq_join s
  have hin : joinSegs segOrig (segScan s) = s := segScan_reconstruct s
  have hlout : (fixContent s).length = (joinSegs segNew (segScan s)).length :=
    congrArg List.length hout
  have hlin : (joinSegs segOrig (segScan s)).length = s.length :=
    congrArg List.length hin
  refine ⟨?_, ?_, by decide, by decide⟩
  · have h1 := joinSegs_len_le (segScan s)
    omega
  · constructor
    · intro heq
      constructor
      · intro j hj
        have hmem := occ1_in_scan_aux s.length s (Nat.le_refl _) j hj
        have hlt := joinSegs_len_lt (segScan s) (Or.inl hmem)
        omega
      · intro j hj
        have hmem := occ2_in_scan_aux s.length s (Nat.le_refl _) j hj
        have hlt := joinSegs_len_lt (segScan s) (Or.inr hmem)
        omega
    · rintro ⟨hn1, hn2⟩
      have hm1 : Seg.occ1 ∉ segScan s := by
        intro hmem
        obtain ⟨j, hj⟩ := scan_occ1_sound_aux s.length s (Nat.le_refl _) hmem
        exact hn1 j hj
      have hm2 : Seg.occ2 ∉ segScan s := by
        intro hmem
        obtain ⟨j, hj⟩ := scan_occ2_sound_aux s.length s (Nat.le_refl _) hmem
        exact hn2 j hj
      rw [hout, joinSegs_eq_all_lit (segScan s) hm1 hm2, hin]
